import Mathlib

/-!
Shallow embedding of the FIDE rating scraper's reconciliation core
(`fide_scraper.py`): month-label parsing, rating-history extraction,
the persisted ledger (load / upsert-merge / write), new-month change
detection, and batch orchestration. Definitions mirror the Python
source; machine-external effects (HTTP fetch, DOM selection, the file
system) are modelled as explicit inputs.
-/

/-! ## Python string primitives -/

/-- Whitespace characters recognised by Python's `str.strip()` (ASCII subset). -/
def pySpace (c : Char) : Bool :=
  c = ' ' || c = '\t' || c = '\n' || c = '\r' || c = '\x0b' || c = '\x0c'

/-- Strip leading and trailing whitespace from a character list, as `str.strip()`. -/
def stripChars (l : List Char) : List Char :=
  ((l.dropWhile pySpace).reverse.dropWhile pySpace).reverse

/-- Python `str.strip()`. -/
def pyStrip (s : String) : String := String.mk (stripChars s.data)

/-- Python `str.lower()` (ASCII letters). -/
def pyLower (s : String) : String := String.mk (s.data.map Char.toLower)

/-- Python `str.isdigit()` (ASCII digits): nonempty and all digits. -/
def pyIsDigitStr (s : String) : Bool := !s.data.isEmpty && s.data.all Char.isDigit

/-- After the first digit of an integer literal: digits, with single
underscores allowed between digits (Python `int()` lexical rule). -/
def duRest : List Char → Bool
  | [] => true
  | '_' :: d :: ds => d.isDigit && duRest ds
  | '_' :: [] => false
  | c :: cs => c.isDigit && duRest cs

/-- A nonempty digit sequence with optional single underscores between digits. -/
def duOk : List Char → Bool
  | [] => false
  | c :: cs => c.isDigit && duRest cs

/-- Numeric value of a digit-character list (underscores removed by the caller). -/
def digitsVal (l : List Char) : Nat :=
  l.foldl (fun a c => a * 10 + (c.toNat - 48)) 0

/-- Python `int(text)` on a character list: optional surrounding whitespace,
optional sign, then digits (with `_` separators); `none` on failure. -/
def pyIntOfChars (l0 : List Char) : Option Int :=
  match stripChars l0 with
  | [] => none
  | c :: rest =>
    if c = '+' then
      (if duOk rest then some (Int.ofNat (digitsVal (rest.filter (fun x => x ≠ '_'))))
       else none)
    else if c = '-' then
      (if duOk rest then some (-(Int.ofNat (digitsVal (rest.filter (fun x => x ≠ '_')))))
       else none)
    else
      (if duOk (c :: rest) then
        some (Int.ofNat (digitsVal ((c :: rest).filter (fun x => x ≠ '_'))))
       else none)

/-- Python `int(s)`, returning `none` where Python raises `ValueError`. -/
def pyInt? (s : String) : Option Int := pyIntOfChars s.data

/-- Python `str.split(sep)` for a single-character separator, on char lists. -/
def splitOnChar (sep : Char) : List Char → List (List Char)
  | [] => [[]]
  | c :: cs =>
    match splitOnChar sep cs with
    | [] => [[]]
    | g :: gs => if c = sep then [] :: g :: gs else (c :: g) :: gs

/-! ## Dates (`datetime.date` restricted to what the scraper uses) -/

/-- A Python `datetime.date` value as produced by `_calculate_month_end_date`. -/
structure PyDate where
  year : Int
  month : Nat
  day : Nat
deriving DecidableEq, Repr

/-- Decimal digit character. -/
def digitChar (n : Nat) : Char := Char.ofNat (48 + n % 10)

/-- Decimal digits of `n`, most significant first (fuel-driven for structural recursion). -/
def natToChars (fuel : Nat) (n : Nat) : List Char :=
  match fuel with
  | 0 => []
  | f + 1 => if n < 10 then [digitChar n] else natToChars f (n / 10) ++ [digitChar (n % 10)]

/-- Decimal representation of a natural number. -/
def natChars (n : Nat) : List Char := natToChars (n + 1) n

/-- Left-pad with zeros to width `w`. -/
def padLeftZeros (w : Nat) (l : List Char) : List Char :=
  List.replicate (w - l.length) '0' ++ l

/-- Python `date.isoformat()`: `YYYY-MM-DD` with zero padding. -/
def isoformat (d : PyDate) : String :=
  String.mk (padLeftZeros 4 (natChars d.year.toNat) ++
    '-' :: (padLeftZeros 2 (natChars d.month) ++ '-' :: padLeftZeros 2 (natChars d.day)))

/-- Python `str(int)`. -/
def intToDecString (i : Int) : String :=
  if i < 0 then String.mk ('-' :: natChars i.natAbs) else String.mk (natChars i.toNat)

/-! ## Month-label parsing (`_parse_english_month`, `_calculate_month_end_date`,
`_parse_month_year_string`) -/

/-- The `month_map` of `_parse_english_month`; `none` models the raised `ValueError`. -/
def _parse_english_month (month_abbr : String) : Option Nat :=
  List.lookup month_abbr
    [("Jan", 1), ("Feb", 2), ("Mar", 3), ("Apr", 4), ("May", 5), ("Jun", 6),
     ("Jul", 7), ("Aug", 8), ("Sep", 9), ("Oct", 10), ("Nov", 11), ("Dec", 12)]

/-- Python `calendar.isleap`. -/
def calendar_isleap (y : Int) : Bool :=
  y % 4 = 0 && (y % 100 ≠ 0 || y % 400 = 0)

/-- Number of days of month `m` in year `y`, as `calendar.monthrange(y, m)[1]`. -/
def calendar_monthrange_days (y : Int) (m : Nat) : Nat :=
  if m = 2 then (if calendar_isleap y then 29 else 28)
  else if m = 4 || m = 6 || m = 9 || m = 11 then 30
  else 31

/-- The last day of a month (`_calculate_month_end_date`). -/
def _calculate_month_end_date (y : Int) (m : Nat) : PyDate :=
  ⟨y, m, calendar_monthrange_days y m⟩

/-- Parse a `"Year-Mon"` label to the last day of that month
(`_parse_month_year_string`); `none` where the Python returns `None`.
The `1 ≤ y ≤ 9999` guard models the `ValueError` raised by `datetime.date`
(reached through `calendar.monthrange`) for out-of-range years, which the
source catches and converts to `None`. -/
def _parse_month_year_string (s : String) : Option PyDate :=
  if s = "" then none
  else
    match splitOnChar '-' (stripChars s.data) with
    | [ys, ms] =>
      match pyIntOfChars (stripChars ys) with
      | none => none
      | some y =>
        match _parse_english_month (String.mk (stripChars ms)) with
        | none => none
        | some m => if 1 ≤ y ∧ y ≤ 9999 then some (_calculate_month_end_date y m) else none
    | _ => none

/-! ## History extraction (`_extract_all_history_rows`,
`_deduplicate_history_by_month`, `_convert_raw_history_to_records`,
`extract_rating_history`).

The HTML document is modelled at the extraction boundary: the history
table located by the DOM selector is an optional list of rows, each row a
list of cell texts (`get_text` results before `strip=True`). -/

/-- One raw table row as collected by `_extract_all_history_rows`. -/
structure RawRow where
  month_year_str : String
  standard : Option Int
  rapid : Option Int
  blitz : Option Int
deriving DecidableEq, Repr

/-- The inner `extract_rating` closure of `_extract_all_history_rows`:
empty / "not rated" / "unrated" (case-insensitive) map to `none`; otherwise
parse an integer and keep it only inside `[0, 4000]`. -/
def extract_rating (cellText : String) : Option Int :=
  let text := pyStrip cellText
  if text = "" ∨ pyLower text ∈ (["not rated", "unrated", ""] : List String) then none
  else
    match pyInt? text with
    | none => none
    | some r => if 0 ≤ r ∧ r ≤ 4000 then some r else none

/-- Process one data row of the table: rows with fewer than 4 cells are
skipped by the explicit guard; rows with 4 or 5 cells are skipped because
indexing `cells[5]` raises `IndexError`, caught by the per-row handler;
an empty month cell skips the row. Ratings come from cells 1, 3 and 5. -/
def processRow (cells : List String) : Option RawRow :=
  if cells.length < 4 then none
  else
    match cells[0]?, cells[1]?, cells[3]?, cells[5]? with
    | some c0, some c1, some c3, some c5 =>
      let m := pyStrip c0
      if m = "" then none
      else some ⟨m, extract_rating c1, extract_rating c3, extract_rating c5⟩
    | _, _, _, _ => none

/-- Extract all raw rows (`_extract_all_history_rows`): no table or fewer
than two rows yields `[]`; the header row (index 0) is skipped. -/
def _extract_all_history_rows (table : Option (List (List String))) : List RawRow :=
  match table with
  | none => []
  | some rows =>
    if rows.length < 2 then []
    else (rows.drop 1).filterMap processRow

/-- The seen-set loop of `_deduplicate_history_by_month`. -/
def dedupGo (seen : List String) : List RawRow → List RawRow
  | [] => []
  | r :: rs =>
    if r.month_year_str ∈ seen then dedupGo seen rs
    else r :: dedupGo (r.month_year_str :: seen) rs

/-- Deduplicate by month label, keeping the first (topmost) occurrence. -/
def _deduplicate_history_by_month (history_rows : List RawRow) : List RawRow :=
  dedupGo [] history_rows

/-- One month's extracted record; `date` is optional to model the dict
`.get("date")` access pattern used downstream. -/
structure HistRecord where
  date : Option PyDate
  standard : Option Int
  rapid : Option Int
  blitz : Option Int
deriving DecidableEq, Repr

/-- Deduplicate, then convert month labels to month-end dates, silently
dropping rows whose label fails to parse (`_convert_raw_history_to_records`). -/
def _convert_raw_history_to_records (raw_history : List RawRow) : List HistRecord :=
  (_deduplicate_history_by_month raw_history).filterMap (fun row =>
    match _parse_month_year_string row.month_year_str with
    | none => none
    | some d => some ⟨some d, row.standard, row.rapid, row.blitz⟩)

/-- Full extraction pipeline (`extract_rating_history`). -/
def extract_rating_history (table : Option (List (List String))) : List HistRecord :=
  _convert_raw_history_to_records (_extract_all_history_rows table)

/-! ## FIDE ID validation (`validate_fide_id`) -/

/-- Syntactic FIDE ID check: numeric, 4 to 10 digits. -/
def validate_fide_id (fide_id : String) : Bool :=
  if fide_id = "" then false
  else if !pyIsDigitStr fide_id then false
  else if fide_id.data.length < 4 || fide_id.data.length > 10 then false
  else true

/-! ## Association-list dictionaries

Python dicts are modelled as association lists: assignment replaces the
value of an existing key in place and appends new keys at the end, which
matches dict insertion-order semantics; `alookup` is dict indexing. -/

/-- Dictionary lookup. -/
def alookup {κ β : Type} [DecidableEq κ] (k : κ) : List (κ × β) → Option β
  | [] => none
  | e :: es => if e.1 = k then some e.2 else alookup k es

/-- Dictionary assignment `d[k] = v`. -/
def upsert {κ β : Type} [DecidableEq κ] (m : List (κ × β)) (k : κ) (v : β) : List (κ × β) :=
  if (alookup k m).isSome then m.map (fun e => if e.1 = k then (k, v) else e)
  else m ++ [(k, v)]

/-! ## Ledger rows and loading (`load_historical_ratings_by_player`) -/

/-- One CSV row of the persisted ledger (`fide_ratings.csv`). -/
structure Row where
  date : String
  fideId : String
  playerName : String
  standard : String
  rapid : String
  blitz : String
deriving DecidableEq, Repr

/-- One stored monthly record as loaded back from the ledger; the
`row.get(c, '') or None` idiom turns empty rating cells into `none`. -/
structure StoredRecord where
  date : String
  playerName : String
  standard : Option String
  rapid : Option String
  blitz : Option String
deriving DecidableEq, Repr

/-- The loaded ledger view: FIDE ID to that player's stored records. -/
abbrev StoredMap := List (String × List StoredRecord)

/-- Python `s or None` on a string cell. -/
def emptyToNone (s : String) : Option String := if s = "" then none else some s

/-- The state of the ledger file as seen by the loader: absent, present but
unreadable (permission or decode error), or readable with a header
(`fieldnames`, `none` for an empty file) and data rows. -/
inductive LedgerSource where
  | missing
  | unreadable
  | file (fieldnames : Option (List String)) (rows : List Row)

/-- The loader's required column set. -/
def requiredFields : List String :=
  ["Date", "FIDE ID", "Player Name", "Standard", "Rapid", "Blitz"]

/-- Convert a CSV row to the in-memory stored record. -/
def mkStoredRecord (row : Row) : StoredRecord :=
  { date := row.date, playerName := row.playerName,
    standard := emptyToNone row.standard, rapid := emptyToNone row.rapid,
    blitz := emptyToNone row.blitz }

/-- Group one row into the per-player map, skipping rows whose stripped
FIDE ID is empty; appends to the existing list for that player. -/
def addStoredRow (m : StoredMap) (row : Row) : StoredMap :=
  if pyStrip row.fideId = "" then m
  else
    match alookup (pyStrip row.fideId) m with
    | some g => upsert m (pyStrip row.fideId) (g ++ [mkStoredRecord row])
    | none => m ++ [(pyStrip row.fideId, [mkStoredRecord row])]

/-- Load the ledger grouped by player (`load_historical_ratings_by_player`):
a missing or unreadable file, an empty file, or a file missing any required
column yields the empty mapping. -/
def load_historical_ratings_by_player : LedgerSource → StoredMap
  | .missing => []
  | .unreadable => []
  | .file none _ => []
  | .file (some fns) rows =>
    if requiredFields.all (fun f => fns.contains f) then rows.foldl addStoredRow []
    else []

/-! ## Change detection (`detect_new_months`) -/

/-- The `stored_months` set of `detect_new_months`: the nonempty `Date`
strings of the player's stored records (the empty set when the player is
absent from the ledger view). -/
def detectStoredMonths (fide_id : String) (stored_history : StoredMap) : List String :=
  match alookup fide_id stored_history with
  | some recs => (recs.map (fun r => r.date)).filter (fun s => s != "")
  | none => []

/-- Detect the scraped records whose month-end date is not yet stored for
this player; a scraped record with a `None` date is skipped. -/
def detect_new_months (fide_id : String) (scraped_history : List HistRecord)
    (stored_history : StoredMap) : List HistRecord :=
  scraped_history.filter (fun r =>
    match r.date with
    | none => false
    | some d => !((detectStoredMonths fide_id stored_history).contains (isoformat d)))

/-! ## Ledger merge and write-back (`write_csv_output`) -/

/-- One entry of the `player_profiles` argument of `write_csv_output`
(the keys `FIDE ID`, `Player Name`, `Rating History` of a result dict). -/
structure Profile where
  fideId : String
  playerName : String
  ratingHistory : List HistRecord
deriving Repr

/-- Merge keys: `(FIDE ID, Date)` pairs of strings. -/
abbrev RowKey := String × String

/-- The `(FIDE ID, Date) -> row` dictionaries used by `write_csv_output`. -/
abbrev RowMap := List (RowKey × Row)

/-- The header written by `write_csv_output` (its `fieldnames` list). -/
def outputFieldnames : List String :=
  ["Date", "FIDE ID", "Player Name", "Standard", "Rapid", "Blitz"]

/-- Rating value to CSV cell: `None` becomes the empty cell. -/
def ratingCell : Option Int → String
  | none => ""
  | some n => intToDecString n

/-- The key of a row as rebuilt when reading the ledger back. -/
def rowKey (r : Row) : RowKey := (r.fideId, r.date)

/-- Read the existing file into `existing_rows_by_key`. -/
def buildExistingRows (rows : List Row) : RowMap :=
  rows.foldl (fun acc r => upsert acc (rowKey r) r) []

/-- The CSV row written for one month of one profile. -/
def profileRow (fid name dateStr : String) (rec : HistRecord) : Row :=
  { date := dateStr, fideId := fid, playerName := name,
    standard := ratingCell rec.standard, rapid := ratingCell rec.rapid,
    blitz := ratingCell rec.blitz }

/-- Build `new_rows_by_key` from the profiles: one row per month with a
non-`None` date, later writes overriding earlier ones for the same key. -/
def buildNewRows (player_profiles : List Profile) : RowMap :=
  player_profiles.foldl (fun acc p =>
    p.ratingHistory.foldl (fun acc2 rec =>
      match rec.date with
      | none => acc2
      | some d => upsert acc2 (p.fideId, isoformat d)
          (profileRow p.fideId p.playerName (isoformat d) rec)) acc) []

/-- Python `{**a, **b}`: insert all entries of `b` into `a` in order. -/
def dictUnion (a b : RowMap) : RowMap :=
  b.foldl (fun acc e => upsert acc e.1 e.2) a

/-- Python's ordering on `(str, str)` keys: lexicographic pairs of
code-point-lexicographic strings. -/
def keyLe (a b : RowKey) : Prop := a.1 < b.1 ∨ (a.1 = b.1 ∧ a.2 ≤ b.2)

instance : DecidableRel keyLe := fun a b =>
  inferInstanceAs (Decidable (a.1 < b.1 ∨ (a.1 = b.1 ∧ a.2 ≤ b.2)))

/-- Ordering of map entries by key. -/
def entryLe (a b : RowKey × Row) : Prop := keyLe a.1 b.1

instance : DecidableRel entryLe := fun a b => inferInstanceAs (Decidable (keyLe a.1 b.1))

/-- Emit the merged dictionary's rows sorted by key, as
`for key in sorted(merged_rows_by_key.keys())`. Keys are pairwise distinct
in every dictionary this is applied to, so any sorting algorithm for the
total order `entryLe` produces the same list as Python's `sorted`. -/
def sortEntries (m : RowMap) : RowMap := m.insertionSort entryLe

/-- The `existing_rows_by_key` dictionary: empty when the file does not
exist, otherwise read from the file's rows. -/
def existingMap (existing : Option (List Row)) : RowMap :=
  match existing with
  | none => []
  | some rows => buildExistingRows rows

/-- Merge the profiles into the ledger file and return the rows written
(`write_csv_output`): read the existing rows if the file exists, build the
new rows, let new rows override existing ones, and write back sorted by
`(FIDE ID, Date)`. The written header is `outputFieldnames`. -/
def write_csv_output (existing : Option (List Row)) (player_profiles : List Profile) :
    List Row :=
  (sortEntries (dictUnion (existingMap existing) (buildNewRows player_profiles))).map
    Prod.snd

/-! ## Batch orchestration (`process_batch`)

The fetch collaborator (`fetch_fide_profile`) and the DOM selectors are
external: each identifier's fetch outcome is an explicit input. A fetched
page carries exactly what the two extractors read from it: the name text
located by the name selectors (`extract_player_name` result) and the
history table. -/

/-- A fetched profile page at the extraction boundary. -/
structure Doc where
  nameText : Option String
  table : Option (List (List String))

/-- Outcome of `fetch_fide_profile` for one identifier: a page, a 404
(`None`), or one of the exceptions caught by the batch loop. -/
inductive FetchOutcome where
  | page (d : Doc)
  | notFound
  | connError (msg : String)
  | timeoutErr
  | httpError (msg : String)
  | otherError (msg : String)

/-- One result dict of `process_batch`. -/
structure BatchResult where
  date : String
  fideId : String
  playerName : String
  standard : Option Int
  rapid : Option Int
  blitz : Option Int
  ratingHistory : List HistRecord
  newMonths : List HistRecord
deriving Repr

/-- The body of the batch loop for a single identifier: either a result
dict or the error message appended for it. -/
def processOne (env : String → FetchOutcome) (today : String)
    (historical_data : StoredMap) (fid : String) : Except String BatchResult :=
  if !validate_fide_id fid then .error s!"Invalid FIDE ID format: {fid} (skipped)"
  else
    match env fid with
    | .notFound => .error s!"Player not found (FIDE ID: {fid}) (skipped)"
    | .connError m => .error s!"Network error for FIDE ID {fid}: {m} (skipped)"
    | .timeoutErr => .error s!"Request timeout for FIDE ID {fid} (skipped)"
    | .httpError m => .error s!"HTTP error for FIDE ID {fid}: {m} (skipped)"
    | .otherError m => .error s!"Unexpected error for FIDE ID {fid}: {m} (skipped)"
    | .page d =>
      let player_name := d.nameText.getD ""
      let rating_history := extract_rating_history d.table
      if rating_history = [] ∧ player_name = "" then
        .error s!"Unable to extract data from FIDE profile (FIDE ID: {fid}) (skipped)"
      else
        let new_months := detect_new_months fid rating_history historical_data
        let latest := rating_history.head?
        .ok { date := today, fideId := fid, playerName := player_name,
              standard := latest.bind (fun r => r.standard),
              rapid := latest.bind (fun r => r.rapid),
              blitz := latest.bind (fun r => r.blitz),
              ratingHistory := rating_history, newMonths := new_months }

/-- The batch loop (`process_batch`): accumulate results and error
messages over the identifier list, never aborting on a failure. -/
def process_batch (env : String → FetchOutcome) (today : String)
    (historical_data : StoredMap) (fide_ids : List String) :
    List BatchResult × List String :=
  fide_ids.foldl (fun acc fid =>
    match processOne env today historical_data fid with
    | .ok r => (acc.1 ++ [r], acc.2)
    | .error e => (acc.1, acc.2 ++ [e])) ([], [])

/-- The error side of a per-identifier outcome. -/
def exceptError {ε α : Type} : Except ε α → Option ε
  | .ok _ => none
  | .error e => some e

/-! ## Definitions used only in specification statements -/

/-- Every entry of a well-formed row map carries its own key. -/
def WfRowMap (m : RowMap) : Prop := ∀ e ∈ m, e.1 = rowKey e.2

/-- The stored `Date` strings the loaded ledger holds for one player. -/
def groupDates (m : StoredMap) (fid : String) : List String :=
  ((alookup fid m).getD []).map (fun r => r.date)

/-- The first row of the written file whose `(FIDE ID, Date)` fields equal `k`. -/
def findRowByKey (rows : List Row) (k : RowKey) : Option Row :=
  rows.find? (fun r => decide (rowKey r = k))

/-- Restatement of `detect_new_months` in the spec's own words, for the
refinement claim: keep exactly the fresh records whose month-end date is
not among the dates stored for the identifier (all of them, with no
empty-string filtering), in order. -/
def detect_new_months_spec (fide_id : String) (fresh : List HistRecord)
    (stored : StoredMap) : List HistRecord :=
  fresh.filter (fun r =>
    match r.date with
    | none => true
    | some d => !((groupDates stored fide_id).contains (isoformat d)))

/-! ## Helper lemmas: association-list dictionaries -/

theorem alookup_eq_none_iff {κ β : Type} [DecidableEq κ] (k : κ) (m : List (κ × β)) :
    alookup k m = none ↔ k ∉ m.map Prod.fst := by
  induction m with
  | nil => simp [alookup]
  | cons e es ih =>
    by_cases h : e.1 = k
    · simp [alookup, h]
    · simp [alookup, h, ih, Ne.symm h]

theorem mem_of_alookup_eq_some {κ β : Type} [DecidableEq κ] {k : κ} {v : β}
    {m : List (κ × β)} (h : alookup k m = some v) : (k, v) ∈ m := by
  induction m with
  | nil => simp [alookup] at h
  | cons e es ih =>
    by_cases h1 : e.1 = k
    · rw [alookup, if_pos h1] at h
      have hv : e.2 = v := Option.some.inj h
      have he : (k, v) = e := by rw [← h1, ← hv]
      rw [he]
      exact List.mem_cons_self e es
    · rw [alookup, if_neg h1] at h
      exact List.mem_cons_of_mem _ (ih h)

theorem alookup_eq_some_of_mem_nodup {κ β : Type} [DecidableEq κ] {k : κ} {v : β}
    {m : List (κ × β)} (hn : (m.map Prod.fst).Nodup) (hm : (k, v) ∈ m) :
    alookup k m = some v := by
  induction m with
  | nil => simp at hm
  | cons e es ih =>
    simp only [List.map_cons, List.nodup_cons] at hn
    rcases List.mem_cons.mp hm with h | h
    · rw [← h]
      simp [alookup]
    · have hk : k ∈ es.map Prod.fst := List.mem_map.mpr ⟨(k, v), h, rfl⟩
      have h1 : e.1 ≠ k := fun he => hn.1 (he ▸ hk)
      simp only [alookup, h1, if_neg, if_false]
      exact ih hn.2 h

theorem alookup_perm {κ β : Type} [DecidableEq κ] {m m' : List (κ × β)}
    (h : m.Perm m') (hn : (m.map Prod.fst).Nodup) (k : κ) :
    alookup k m = alookup k m' := by
  have hn' : (m'.map Prod.fst).Nodup := ((h.map Prod.fst).nodup_iff).mp hn
  cases hv : alookup k m with
  | some v =>
    exact (alookup_eq_some_of_mem_nodup hn' (h.mem_iff.mp (mem_of_alookup_eq_some hv))).symm
  | none =>
    have hk : k ∉ m'.map Prod.fst := by
      intro hx
      exact (alookup_eq_none_iff k m).mp hv (((h.map Prod.fst).mem_iff).mpr hx)
    exact ((alookup_eq_none_iff k m').mpr hk).symm

theorem alookup_append {κ β : Type} [DecidableEq κ] (m n : List (κ × β)) (k : κ) :
    alookup k (m ++ n) = (alookup k m).or (alookup k n) := by
  induction m with
  | nil => simp [alookup]
  | cons e es ih =>
    by_cases h : e.1 = k <;> simp [alookup, h, ih]

theorem alookup_map_replace {κ β : Type} [DecidableEq κ] (m : List (κ × β)) (k : κ) (v : β) :
    alookup k (m.map (fun e => if e.1 = k then (k, v) else e)) =
      if (alookup k m).isSome then some v else none := by
  induction m with
  | nil => simp [alookup]
  | cons e es ih =>
    by_cases h : e.1 = k
    · simp [alookup, h]
    · simp [alookup, h, ih]

theorem alookup_map_replace_ne {κ β : Type} [DecidableEq κ] (m : List (κ × β))
    {k k' : κ} (v : β) (h : k' ≠ k) :
    alookup k' (m.map (fun e => if e.1 = k then (k, v) else e)) = alookup k' m := by
  induction m with
  | nil => simp
  | cons e es ih =>
    by_cases h1 : e.1 = k
    · have h2 : k ≠ k' := Ne.symm h
      simp [alookup, h1, h2, ih]
    · by_cases h2 : e.1 = k' <;> simp [alookup, h1, h2, h, ih]

theorem alookup_upsert_self {κ β : Type} [DecidableEq κ] (m : List (κ × β)) (k : κ) (v : β) :
    alookup k (upsert m k v) = some v := by
  unfold upsert
  by_cases h : (alookup k m).isSome
  · simp [h, alookup_map_replace]
  · simp [h, alookup_append, Option.not_isSome_iff_eq_none.mp h, alookup]

theorem alookup_upsert_ne {κ β : Type} [DecidableEq κ] (m : List (κ × β))
    {k k' : κ} (v : β) (h : k' ≠ k) :
    alookup k' (upsert m k v) = alookup k' m := by
  unfold upsert
  by_cases h1 : (alookup k m).isSome
  · simp [h1, alookup_map_replace_ne _ _ h]
  · simp [h1, alookup_append, alookup, Ne.symm h]

theorem keys_upsert {κ β : Type} [DecidableEq κ] (m : List (κ × β)) (k : κ) (v : β) :
    (upsert m k v).map Prod.fst =
      if (alookup k m).isSome then m.map Prod.fst else m.map Prod.fst ++ [k] := by
  unfold upsert
  by_cases h : (alookup k m).isSome
  · simp only [h, if_true, List.map_map]
    exact List.map_congr_left (fun e _ => by by_cases h1 : e.1 = k <;> simp [h1])
  · simp [h]

theorem nodup_keys_upsert {κ β : Type} [DecidableEq κ] {m : List (κ × β)} (k : κ) (v : β)
    (hn : (m.map Prod.fst).Nodup) : ((upsert m k v).map Prod.fst).Nodup := by
  rw [keys_upsert]
  by_cases h : (alookup k m).isSome
  · simpa [h]
  · have hk : k ∉ m.map Prod.fst :=
      (alookup_eq_none_iff k m).mp (Option.not_isSome_iff_eq_none.mp h)
    rw [if_neg h]
    refine List.Nodup.append hn (List.nodup_singleton k) ?_
    intro a ha hb
    rw [List.mem_singleton] at hb
    subst hb
    exact hk ha

theorem mem_keys_upsert_self {κ β : Type} [DecidableEq κ] (m : List (κ × β)) (k : κ) (v : β) :
    k ∈ (upsert m k v).map Prod.fst := by
  have := alookup_upsert_self m k v
  by_contra hk
  rw [← alookup_eq_none_iff k (upsert m k v)] at hk
  rw [this] at hk
  cases hk

theorem mem_keys_upsert_of_mem {κ β : Type} [DecidableEq κ] (m : List (κ × β)) (k k' : κ)
    (v : β) (h : k' ∈ m.map Prod.fst) : k' ∈ (upsert m k v).map Prod.fst := by
  rw [keys_upsert]
  by_cases h1 : (alookup k m).isSome <;> simp [h1, h]

theorem forall_mem_upsert {κ β : Type} [DecidableEq κ] {P : κ × β → Prop}
    {m : List (κ × β)} {k : κ} {v : β}
    (hm : ∀ e ∈ m, P e) (hv : P (k, v)) : ∀ e ∈ upsert m k v, P e := by
  intro e he
  unfold upsert at he
  by_cases h : (alookup k m).isSome
  · rw [if_pos h] at he
    rcases List.mem_map.mp he with ⟨a, ha, rfl⟩
    by_cases h1 : a.1 = k
    · simpa [h1] using hv
    · simpa [h1] using hm a ha
  · rw [if_neg h] at he
    rcases List.mem_append.mp he with h1 | h1
    · exact hm e h1
    · rcases List.mem_singleton.mp h1 with rfl
      exact hv

theorem upsert_eq_self {κ β : Type} [DecidableEq κ] {m : List (κ × β)} {k : κ} {v : β}
    (hn : (m.map Prod.fst).Nodup) (hl : alookup k m = some v) : upsert m k v = m := by
  unfold upsert
  rw [if_pos (by simp [hl])]
  have : ∀ e ∈ m, (if e.1 = k then (k, v) else e) = e := by
    intro e he
    by_cases h1 : e.1 = k
    · rw [if_pos h1]
      have : (k, e.2) ∈ m := by
        have he' : e = (k, e.2) := by
          rw [← h1]
        rw [← he']
        exact he
      have := alookup_eq_some_of_mem_nodup hn this
      rw [hl] at this
      cases this
      rw [← h1]
    · rw [if_neg h1]
  rw [List.map_congr_left this]
  simp

theorem foldl_preserve {α β : Type} (P : β → Prop) (step : β → α → β) (l : List α) (acc : β)
    (h0 : P acc) (hs : ∀ b a, a ∈ l → P b → P (step b a)) : P (l.foldl step acc) := by
  induction l generalizing acc with
  | nil => exact h0
  | cons x xs ih =>
    exact ih (step acc x) (hs acc x (List.mem_cons_self x xs) h0)
      (fun b a ha hb => hs b a (List.mem_cons_of_mem x ha) hb)

/-! ## Helper lemmas: Python strings and dates -/

theorem pySpace_eq_false_of_isDigit {c : Char} (h : c.isDigit = true) : pySpace c = false := by
  by_contra hne
  rw [Bool.not_eq_false] at hne
  simp only [pySpace, Bool.or_eq_true, decide_eq_true_eq] at hne
  rcases hne with ((((h1 | h1) | h1) | h1) | h1) | h1 <;> subst h1 <;> simp [Char.isDigit] at h

theorem dropWhile_pySpace_eq_self {l : List Char} (h : ∀ c ∈ l, pySpace c = false) :
    l.dropWhile pySpace = l := by
  cases l with
  | nil => rfl
  | cons c cs => simp [List.dropWhile_cons, h c (List.mem_cons_self c cs)]

theorem stripChars_eq_self {l : List Char} (h : ∀ c ∈ l, pySpace c = false) :
    stripChars l = l := by
  unfold stripChars
  rw [dropWhile_pySpace_eq_self h]
  rw [dropWhile_pySpace_eq_self (fun c hc => h c (List.mem_reverse.mp hc))]
  exact List.reverse_reverse l

theorem string_mk_data (s : String) : String.mk s.data = s := rfl

theorem validate_fide_id_strip {s : String} (h : validate_fide_id s = true) :
    pyStrip s = s ∧ s ≠ "" := by
  unfold validate_fide_id at h
  by_cases h1 : s = ""
  · rw [if_pos h1] at h
    cases h
  · rw [if_neg h1] at h
    by_cases h2 : pyIsDigitStr s
    · refine ⟨?_, h1⟩
      have hd : ∀ c ∈ s.data, c.isDigit = true := by
        unfold pyIsDigitStr at h2
        have := (Bool.and_eq_true _ _).mp h2
        exact fun c hc => (List.all_eq_true.mp this.2) c hc
      unfold pyStrip
      rw [stripChars_eq_self (fun c hc => pySpace_eq_false_of_isDigit (hd c hc))]
    · rw [if_pos (by simp [h2])] at h
      cases h

theorem isoformat_ne_empty (d : PyDate) : isoformat d ≠ "" := by
  unfold isoformat
  intro h
  have h2 : (padLeftZeros 4 (natChars d.year.toNat) ++
      '-' :: (padLeftZeros 2 (natChars d.month) ++ '-' :: padLeftZeros 2 (natChars d.day)))
      = ([] : List Char) := congrArg String.data h
  simp at h2

/-! ## Helper lemmas: the merge dictionaries of `write_csv_output` -/

theorem alookup_dictUnion {e n : RowMap} (hn : (n.map Prod.fst).Nodup) (k : RowKey) :
    alookup k (dictUnion e n) = (alookup k n).or (alookup k e) := by
  unfold dictUnion
  induction n generalizing e with
  | nil => simp [alookup]
  | cons x xs ih =>
    simp only [List.map_cons, List.nodup_cons] at hn
    rw [List.foldl_cons, ih hn.2]
    by_cases hk : x.1 = k
    · have hx : alookup k xs = none := by
        rw [alookup_eq_none_iff]
        intro hmem
        exact hn.1 (hk ▸ hmem)
      rw [hx, alookup, if_pos hk, hk, alookup_upsert_self]
      rfl
    · rw [alookup, if_neg hk, alookup_upsert_ne _ _ (fun hx => hk hx.symm)]

theorem dictUnion_eq_self {m n : RowMap} (hm : (m.map Prod.fst).Nodup)
    (h : ∀ x ∈ n, alookup x.1 m = some x.2) : dictUnion m n = m := by
  unfold dictUnion
  induction n with
  | nil => rfl
  | cons x xs ih =>
    rw [List.foldl_cons, upsert_eq_self hm (h x (List.mem_cons_self x xs))]
    exact ih (fun y hy => h y (List.mem_cons_of_mem x hy))

theorem nodup_keys_dictUnion {e n : RowMap} (he : (e.map Prod.fst).Nodup) :
    ((dictUnion e n).map Prod.fst).Nodup := by
  unfold dictUnion
  exact foldl_preserve (fun (b : RowMap) => (b.map Prod.fst).Nodup) _ n e he
    (fun b a _ hb => nodup_keys_upsert a.1 a.2 hb)

theorem wf_dictUnion {e n : RowMap} (he : WfRowMap e) (hn : WfRowMap n) :
    WfRowMap (dictUnion e n) := by
  unfold dictUnion
  exact foldl_preserve WfRowMap _ n e he (fun b a ha hb =>
    forall_mem_upsert hb (by exact hn a ha))

theorem nodup_keys_buildExistingRows (rows : List Row) :
    ((buildExistingRows rows).map Prod.fst).Nodup := by
  unfold buildExistingRows
  exact foldl_preserve (fun (b : RowMap) => (b.map Prod.fst).Nodup) _ rows [] (by simp)
    (fun b a _ hb => nodup_keys_upsert _ _ hb)

theorem wf_buildExistingRows (rows : List Row) : WfRowMap (buildExistingRows rows) := by
  unfold buildExistingRows
  exact foldl_preserve WfRowMap _ rows [] (by intro e he; cases he)
    (fun b a _ hb => forall_mem_upsert hb rfl)

theorem nodup_keys_buildNewRows (ps : List Profile) :
    ((buildNewRows ps).map Prod.fst).Nodup := by
  unfold buildNewRows
  refine foldl_preserve (fun (b : RowMap) => (b.map Prod.fst).Nodup) _ ps [] (by simp)
    (fun b p _ hb => ?_)
  refine foldl_preserve (fun (b : RowMap) => (b.map Prod.fst).Nodup) _ p.ratingHistory b hb
    (fun b2 rec _ hb2 => ?_)
  cases hrec : rec.date with
  | none => exact hb2
  | some d => exact nodup_keys_upsert _ _ hb2

theorem wf_buildNewRows (ps : List Profile) : WfRowMap (buildNewRows ps) := by
  unfold buildNewRows
  refine foldl_preserve WfRowMap _ ps [] (by intro e he; cases he) (fun b p _ hb => ?_)
  refine foldl_preserve WfRowMap _ p.ratingHistory b hb (fun b2 rec _ hb2 => ?_)
  cases hrec : rec.date with
  | none => exact hb2
  | some d => exact forall_mem_upsert hb2 rfl

/-! ## Helper lemmas: the key order used for the sorted write-back -/

theorem keyLe_total (a b : RowKey) : keyLe a b ∨ keyLe b a := by
  unfold keyLe
  rcases lt_trichotomy a.1 b.1 with h | h | h
  · exact Or.inl (Or.inl h)
  · rcases le_total a.2 b.2 with h2 | h2
    · exact Or.inl (Or.inr ⟨h, h2⟩)
    · exact Or.inr (Or.inr ⟨h.symm, h2⟩)
  · exact Or.inr (Or.inl h)

theorem keyLe_trans {a b c : RowKey} (h1 : keyLe a b) (h2 : keyLe b c) : keyLe a c := by
  unfold keyLe at *
  rcases h1 with h1 | ⟨h1, h1'⟩
  · rcases h2 with h2 | ⟨h2, _⟩
    · exact Or.inl (h1.trans h2)
    · exact Or.inl (h2 ▸ h1)
  · rcases h2 with h2 | ⟨h2, h2'⟩
    · exact Or.inl (h1 ▸ h2)
    · exact Or.inr ⟨h1.trans h2, h1'.trans h2'⟩

theorem keyLe_antisymm {a b : RowKey} (h1 : keyLe a b) (h2 : keyLe b a) : a = b := by
  unfold keyLe at *
  rcases h1 with h1 | ⟨h1, h1'⟩
  · rcases h2 with h2 | ⟨h2, _⟩
    · exact absurd (h1.trans h2) (lt_irrefl a.1)
    · exact absurd h1 (h2 ▸ lt_irrefl b.1)
  · rcases h2 with h2 | ⟨h2, h2'⟩
    · exact absurd h2 (h1 ▸ lt_irrefl a.1)
    · exact Prod.ext h1 (le_antisymm h1' h2')

instance : IsTotal (RowKey × Row) entryLe := ⟨fun a b => keyLe_total a.1 b.1⟩

instance : IsTrans (RowKey × Row) entryLe := ⟨fun _ _ _ => keyLe_trans⟩

theorem sortEntries_perm (m : RowMap) : (sortEntries m).Perm m :=
  List.perm_insertionSort entryLe m

theorem sortEntries_sorted (m : RowMap) : List.Sorted entryLe (sortEntries m) :=
  List.sorted_insertionSort entryLe m

theorem sortEntries_of_sorted {m : RowMap} (h : List.Sorted entryLe m) :
    sortEntries m = m :=
  List.Sorted.insertionSort_eq h

/-! ## Helper lemmas: reading back a written file -/

theorem buildExistingRows_acc (rows : List Row) (acc : RowMap)
    (h : (acc.map Prod.fst ++ rows.map rowKey).Nodup) :
    rows.foldl (fun m r => upsert m (rowKey r) r) acc =
      acc ++ rows.map (fun r => (rowKey r, r)) := by
  induction rows generalizing acc with
  | nil => simp
  | cons r rs ih =>
    have hk : rowKey r ∉ acc.map Prod.fst := by
      intro hmem
      rcases List.nodup_append.mp h with ⟨-, -, hdisj⟩
      exact hdisj hmem (by simp)
    have hnone : alookup (rowKey r) acc = none := (alookup_eq_none_iff _ _).mpr hk
    have hstep : upsert acc (rowKey r) r = acc ++ [(rowKey r, r)] := by
      unfold upsert
      rw [if_neg (by simp [hnone])]
    rw [List.foldl_cons, hstep, ih]
    · simp
    · simp only [List.map_append, List.map_cons]
      have := h
      simp only [List.map_cons] at this
      
      have h2 : (acc.map Prod.fst ++ rowKey r :: rs.map rowKey) =
          ((acc.map Prod.fst ++ [rowKey r]) ++ rs.map rowKey) := by simp
      rw [h2] at this
      simpa using this

theorem buildExistingRows_of_nodup {rows : List Row} (h : (rows.map rowKey).Nodup) :
    buildExistingRows rows = rows.map (fun r => (rowKey r, r)) := by
  unfold buildExistingRows
  have := buildExistingRows_acc rows [] (by simpa using h)
  simpa using this

theorem find?_eq_some_of_unique {α : Type} {l : List α} {p : α → Bool} {v : α}
    (hv : v ∈ l) (hp : p v = true) (hu : ∀ r ∈ l, p r = true → r = v) :
    l.find? p = some v := by
  induction l with
  | nil => cases hv
  | cons a as ih =>
    by_cases pa : p a = true
    · rw [List.find?_cons_of_pos _ pa]
      rw [hu a (List.mem_cons_self a as) pa]
    · rw [List.find?_cons_of_neg _ pa]
      have hva : v ≠ a := fun hva => pa (hva ▸ hp)
      rcases List.mem_cons.mp hv with h1 | h1
      · exact absurd h1 hva
      · exact ih h1 (fun r hr hpr => hu r (List.mem_cons_of_mem a hr) hpr)

/-- The map actually merged and written by `write_csv_output`. -/
theorem write_csv_output_def (existing : Option (List Row)) (ps : List Profile) :
    write_csv_output existing ps =
      (sortEntries (dictUnion
        (existingMap existing)
        (buildNewRows ps))).map Prod.snd := rfl

theorem nodup_keys_mergedMap (existing : Option (List Row)) (ps : List Profile) :
    ((dictUnion
      (existingMap existing)
      (buildNewRows ps)).map Prod.fst).Nodup := by
  cases existing with
  | none => exact nodup_keys_dictUnion (by simp [existingMap])
  | some rows => exact nodup_keys_dictUnion (nodup_keys_buildExistingRows rows)

theorem wf_mergedMap (existing : Option (List Row)) (ps : List Profile) :
    WfRowMap (dictUnion
      (existingMap existing)
      (buildNewRows ps)) := by
  cases existing with
  | none => exact wf_dictUnion (by intro e he; simp [existingMap] at he) (wf_buildNewRows ps)
  | some rows => exact wf_dictUnion (wf_buildExistingRows rows) (wf_buildNewRows ps)

theorem wf_sortEntries {m : RowMap} (h : WfRowMap m) : WfRowMap (sortEntries m) :=
  fun e he => h e ((sortEntries_perm m).mem_iff.mp he)

/-- Looking a key up in the written file finds exactly the merged map's row. -/
theorem findRowByKey_write (existing : Option (List Row)) (ps : List Profile) (k : RowKey) :
    findRowByKey (write_csv_output existing ps) k =
      alookup k (dictUnion
        (existingMap existing)
        (buildNewRows ps)) := by
  rw [write_csv_output_def]
  set m := dictUnion
    (existingMap existing)
    (buildNewRows ps) with hm
  have hnod : (m.map Prod.fst).Nodup := nodup_keys_mergedMap existing ps
  have hwf : WfRowMap m := wf_mergedMap existing ps
  have hwfs : WfRowMap (sortEntries m) := wf_sortEntries hwf
  have hnods : ((sortEntries m).map Prod.fst).Nodup :=
    (((sortEntries_perm m).map Prod.fst).nodup_iff).mpr hnod
  unfold findRowByKey
  cases hv : alookup k m with
  | some v =>
    have hmem : (k, v) ∈ sortEntries m :=
      (sortEntries_perm m).mem_iff.mpr (mem_of_alookup_eq_some hv)
    refine find?_eq_some_of_unique (List.mem_map.mpr ⟨(k, v), hmem, rfl⟩) ?_ ?_
    · have : k = rowKey v := hwfs (k, v) hmem
      simp [← this]
    · intro r hr hpr
      rcases List.mem_map.mp hr with ⟨e, he, rfl⟩
      have h1 : e.1 = rowKey e.2 := hwfs e he
      have h2 : rowKey e.2 = k := by simpa using hpr
      have h3 : (k, e.2) ∈ sortEntries m := by
        have : e = (k, e.2) := by rw [← h2, ← h1]
        rw [← this]
        exact he
      have h4 : alookup k m = some e.2 :=
        alookup_eq_some_of_mem_nodup hnod ((sortEntries_perm m).mem_iff.mp h3)
      rw [hv] at h4
      exact (Option.some.inj h4).symm
  | none =>
    rw [List.find?_eq_none]
    intro r hr hpr
    rcases List.mem_map.mp hr with ⟨e, he, rfl⟩
    have h1 : e.1 = rowKey e.2 := hwfs e he
    have h2 : rowKey e.2 = k := by simpa using hpr
    have h3 : k ∈ m.map Prod.fst := by
      have : e.1 = k := h1.trans h2
      exact List.mem_map.mpr ⟨e, (sortEntries_perm m).mem_iff.mp he, this⟩
    exact (alookup_eq_none_iff k m).mp hv h3

theorem nodup_rowKey_write (existing : Option (List Row)) (ps : List Profile) :
    ((write_csv_output existing ps).map rowKey).Nodup := by
  rw [write_csv_output_def]
  set m := dictUnion
    (existingMap existing)
    (buildNewRows ps) with hm
  have hwfs : WfRowMap (sortEntries m) := wf_sortEntries (wf_mergedMap existing ps)
  have hnods : ((sortEntries m).map Prod.fst).Nodup :=
    (((sortEntries_perm m).map Prod.fst).nodup_iff).mpr (nodup_keys_mergedMap existing ps)
  rw [List.map_map]
  have : (sortEntries m).map (rowKey ∘ Prod.snd) = (sortEntries m).map Prod.fst :=
    List.map_congr_left (fun e he => ((hwfs e he).symm : rowKey e.2 = e.1))
  rw [this]
  exact hnods

/-- Reading the written file back rebuilds exactly the sorted merged map. -/
theorem buildExistingRows_write (existing : Option (List Row)) (ps : List Profile) :
    buildExistingRows (write_csv_output existing ps) =
      sortEntries (dictUnion
        (existingMap existing)
        (buildNewRows ps)) := by
  rw [buildExistingRows_of_nodup (nodup_rowKey_write existing ps), write_csv_output_def]
  set m := dictUnion
    (existingMap existing)
    (buildNewRows ps) with hm
  have hwfs : WfRowMap (sortEntries m) := wf_sortEntries (wf_mergedMap existing ps)
  rw [List.map_map]
  have : (sortEntries m).map ((fun r => (rowKey r, r)) ∘ Prod.snd) =
      (sortEntries m).map (fun e => e) :=
    List.map_congr_left (fun e he => by
      have h1 : e.1 = rowKey e.2 := hwfs e he
      simp only [Function.comp_apply]
      rw [← h1])
  rw [this]
  simp

/-! ## Helper lemmas: merging the same profiles twice -/

theorem dictUnion_sortEntries_self (existing : Option (List Row)) (ps : List Profile) :
    dictUnion
      (sortEntries (dictUnion
        (existingMap existing)
        (buildNewRows ps)))
      (buildNewRows ps) =
    sortEntries (dictUnion
      (existingMap existing)
      (buildNewRows ps)) := by
  set m := dictUnion
    (existingMap existing)
    (buildNewRows ps) with hm
  have hnod : (m.map Prod.fst).Nodup := nodup_keys_mergedMap existing ps
  have hnods : ((sortEntries m).map Prod.fst).Nodup :=
    (((sortEntries_perm m).map Prod.fst).nodup_iff).mpr hnod
  refine dictUnion_eq_self hnods ?_
  intro x hx
  have h1 : alookup x.1 (sortEntries m) = alookup x.1 m :=
    alookup_perm (sortEntries_perm m) hnods x.1
  have h2 : alookup x.1 (buildNewRows ps) = some x.2 :=
    alookup_eq_some_of_mem_nodup (nodup_keys_buildNewRows ps) (by exact hx)
  rw [h1, hm, alookup_dictUnion (nodup_keys_buildNewRows ps), h2]
  rfl

/-! ## Helper lemmas: keys of the new rows and loaded group dates -/

theorem mem_keys_histFold (fid name : String) (hist : List HistRecord) (acc : RowMap)
    {rec : HistRecord} {d : PyDate} (hr : rec ∈ hist) (hd : rec.date = some d) :
    (fid, isoformat d) ∈ (hist.foldl (fun acc2 r2 =>
      match r2.date with
      | none => acc2
      | some dd => upsert acc2 (fid, isoformat dd)
          (profileRow fid name (isoformat dd) r2)) acc).map Prod.fst := by
  induction hist generalizing acc with
  | nil => cases hr
  | cons x xs ih =>
    rcases List.mem_cons.mp hr with rfl | hr2
    · rw [List.foldl_cons]
      refine foldl_preserve (fun (b : RowMap) => (fid, isoformat d) ∈ b.map Prod.fst)
        _ xs _ ?_ (fun b a _ hb => ?_)
      · rw [hd]
        exact mem_keys_upsert_self _ _ _
      · cases ha : a.date with
        | none => simpa [ha] using hb
        | some dd => simpa [ha] using mem_keys_upsert_of_mem _ _ _ _ hb
    · rw [List.foldl_cons]
      exact ih _ hr2

theorem mem_keys_buildNewRows_single (p : Profile) {rec : HistRecord} {d : PyDate}
    (hr : rec ∈ p.ratingHistory) (hd : rec.date = some d) :
    (p.fideId, isoformat d) ∈ (buildNewRows [p]).map Prod.fst := by
  unfold buildNewRows
  rw [List.foldl_cons, List.foldl_nil]
  exact mem_keys_histFold p.fideId p.playerName p.ratingHistory [] hr hd

theorem groupDates_addStoredRow_self (m : StoredMap) (row : Row)
    (h : pyStrip row.fideId ≠ "") :
    groupDates (addStoredRow m row) (pyStrip row.fideId) =
      groupDates m (pyStrip row.fideId) ++ [row.date] := by
  unfold addStoredRow groupDates
  rw [if_neg h]
  cases hal : alookup (pyStrip row.fideId) m with
  | some g =>
    rw [alookup_upsert_self]
    simp [mkStoredRecord]
  | none =>
    rw [alookup_append, hal, alookup, if_pos rfl]
    simp [mkStoredRecord]

theorem groupDates_addStoredRow_mono (m : StoredMap) (row : Row) (fid : String)
    {x : String} (hx : x ∈ groupDates m fid) :
    x ∈ groupDates (addStoredRow m row) fid := by
  by_cases hemp : pyStrip row.fideId = ""
  · unfold addStoredRow
    rw [if_pos hemp]
    exact hx
  · by_cases hf : pyStrip row.fideId = fid
    · rw [← hf] at hx ⊢
      rw [groupDates_addStoredRow_self m row hemp]
      exact List.mem_append_left _ hx
    · unfold addStoredRow
      rw [if_neg hemp]
      cases hal : alookup (pyStrip row.fideId) m with
      | some g =>
        unfold groupDates at hx ⊢
        rw [alookup_upsert_ne _ _ (fun hcc => hf hcc.symm)]
        exact hx
      | none =>
        unfold groupDates at hx ⊢
        rw [alookup_append]
        have hz : alookup fid [(pyStrip row.fideId, [mkStoredRecord row])] = none := by
          rw [alookup, if_neg hf]
          rfl
        rw [hz, Option.or_none]
        exact hx

theorem mem_groupDates_loadFold (rows : List Row) (acc : StoredMap) {row : Row}
    (hr : row ∈ rows) (h : pyStrip row.fideId ≠ "") :
    row.date ∈ groupDates (rows.foldl addStoredRow acc) (pyStrip row.fideId) := by
  induction rows generalizing acc with
  | nil => cases hr
  | cons x xs ih =>
    rcases List.mem_cons.mp hr with rfl | hr2
    · rw [List.foldl_cons]
      refine foldl_preserve
        (fun (b : StoredMap) => row.date ∈ groupDates b (pyStrip row.fideId)) _ xs _ ?_
        (fun b a _ hb => groupDates_addStoredRow_mono b a _ hb)
      show row.date ∈ groupDates (addStoredRow acc row) (pyStrip row.fideId)
      rw [groupDates_addStoredRow_self acc row h]
      exact List.mem_append_right _ (List.mem_singleton.mpr rfl)
    · rw [List.foldl_cons]
      exact ih _ hr2

/-! ## Helper lemmas: change detection -/

theorem detectStoredMonths_eq (fid : String) (stored : StoredMap) :
    detectStoredMonths fid stored = (groupDates stored fid).filter (fun s => s != "") := by
  unfold detectStoredMonths groupDates
  cases h : alookup fid stored <;> simp

theorem detect_new_months_eq_nil {fid : String} {hist : List HistRecord}
    {stored : StoredMap}
    (h : ∀ r ∈ hist, ∀ d : PyDate, r.date = some d → isoformat d ∈ groupDates stored fid) :
    detect_new_months fid hist stored = [] := by
  unfold detect_new_months
  rw [List.filter_eq_nil_iff]
  intro r hr
  cases hd : r.date with
  | none => simp [hd]
  | some d =>
    have hmem : isoformat d ∈ groupDates stored fid := h r hr d hd
    have hne : isoformat d ≠ "" := isoformat_ne_empty d
    have hmemf : isoformat d ∈ (groupDates stored fid).filter (fun s => s != "") :=
      List.mem_filter.mpr ⟨hmem, by simpa using hne⟩
    simp [hd, detectStoredMonths_eq, hmemf]

/-! ## Claim theorems -/

/-- C3: merging is idempotent — for every prior ledger contents (including
an absent file) and every batch of player profiles, applying
`write_csv_output` twice with the same profiles persists exactly the same
rows as applying it once. -/
theorem write_csv_output_idempotent (existing : Option (List Row)) (ps : List Profile) :
    write_csv_output (some (write_csv_output existing ps)) ps =
      write_csv_output existing ps := by
  rw [write_csv_output_def (some (write_csv_output existing ps)) ps]
  show (sortEntries (dictUnion (buildExistingRows (write_csv_output existing ps))
    (buildNewRows ps))).map Prod.snd = _
  rw [buildExistingRows_write, dictUnion_sortEntries_self,
    sortEntries_of_sorted (sortEntries_sorted _), write_csv_output_def]

/-- C4: the ledger merge is an upsert keyed by `(identity, month_end_date)`:
looking any key up in the written file finds the new value when the updates
touch that key and the unchanged existing value otherwise; a dictionary
assignment always replaces the value at its key (last-writer-wins); and the
written rows are sorted by `(identity, date)` key. -/
theorem write_csv_output_upsert_frame_sorted :
    (∀ (rows : List Row) (ps : List Profile) (k : RowKey),
        findRowByKey (write_csv_output (some rows) ps) k =
          (alookup k (buildNewRows ps)).or (alookup k (buildExistingRows rows)))
    ∧ (∀ (m : RowMap) (k : RowKey) (v : Row), alookup k (upsert m k v) = some v)
    ∧ (∀ (existing : Option (List Row)) (ps : List Profile),
        List.Pairwise (fun r s => keyLe (rowKey r) (rowKey s))
          (write_csv_output existing ps)) := by
  refine ⟨fun rows ps k => ?_, fun m k v => alookup_upsert_self m k v,
    fun existing ps => ?_⟩
  · rw [findRowByKey_write (some rows) ps k]
    show alookup k (dictUnion (buildExistingRows rows) (buildNewRows ps)) = _
    rw [alookup_dictUnion (nodup_keys_buildNewRows ps)]
  · rw [write_csv_output_def]
    set m := dictUnion
      (existingMap existing)
      (buildNewRows ps) with hm
    have hwfs : WfRowMap (sortEntries m) := wf_sortEntries (wf_mergedMap existing ps)
    have hsorted : List.Pairwise entryLe (sortEntries m) := sortEntries_sorted m
    rw [List.pairwise_map]
    refine hsorted.imp_of_mem ?_
    intro a b ha hb hab
    have h1 : a.1 = rowKey a.2 := hwfs a ha
    have h2 : b.1 = rowKey b.2 := hwfs b hb
    unfold entryLe at hab
    rw [h1, h2] at hab
    exact hab

/-- C2: after merging a player's extracted history into the ledger and
reloading the ledger from the written file, detecting new months for that
player against the same history yields the empty list — nothing is new
twice. -/
theorem merged_then_reloaded_detects_nothing (prior : Option (List Row)) (p : Profile)
    (hv : validate_fide_id p.fideId = true) :
    detect_new_months p.fideId p.ratingHistory
      (load_historical_ratings_by_player
        (.file (some outputFieldnames) (write_csv_output prior [p]))) = [] := by
  obtain ⟨hstrip, hne⟩ := validate_fide_id_strip hv
  have hc : requiredFields.all (fun f => outputFieldnames.contains f) = true := by decide
  have hload : load_historical_ratings_by_player
      (LedgerSource.file (some outputFieldnames) (write_csv_output prior [p])) =
      (write_csv_output prior [p]).foldl addStoredRow [] := by
    simp only [load_historical_ratings_by_player, hc, if_true]
  rw [hload]
  refine detect_new_months_eq_nil ?_
  intro r hr d hd
  have hkey : (p.fideId, isoformat d) ∈ (buildNewRows [p]).map Prod.fst :=
    mem_keys_buildNewRows_single p hr hd
  have hnub : ((buildNewRows [p]).map Prod.fst).Nodup := nodup_keys_buildNewRows [p]
  obtain ⟨v0, hv0⟩ : ∃ v0, alookup (p.fideId, isoformat d) (buildNewRows [p]) = some v0 := by
    cases hl : alookup (p.fideId, isoformat d) (buildNewRows [p]) with
    | none => exact absurd hkey ((alookup_eq_none_iff _ _).mp hl)
    | some v => exact ⟨v, rfl⟩
  have hvm : alookup (p.fideId, isoformat d)
      (dictUnion (existingMap prior) (buildNewRows [p])) = some v0 := by
    rw [alookup_dictUnion hnub, hv0]
    rfl
  have hmem : ((p.fideId, isoformat d), v0) ∈
      dictUnion (existingMap prior) (buildNewRows [p]) := mem_of_alookup_eq_some hvm
  have hwf := wf_mergedMap prior [p] _ hmem
  have hfid : v0.fideId = p.fideId := by
    have := congrArg Prod.fst hwf
    exact this.symm
  have hdate : v0.date = isoformat d := by
    have := congrArg Prod.snd hwf
    exact this.symm
  have hout : v0 ∈ write_csv_output prior [p] := by
    rw [write_csv_output_def]
    exact List.mem_map.mpr ⟨((p.fideId, isoformat d), v0),
      (sortEntries_perm _).mem_iff.mpr hmem, rfl⟩
  have hstrip0 : pyStrip v0.fideId = p.fideId := by rw [hfid, hstrip]
  have hd0 : v0.date ∈ groupDates
      ((write_csv_output prior [p]).foldl addStoredRow []) (pyStrip v0.fideId) :=
    mem_groupDates_loadFold (write_csv_output prior [p]) [] hout
      (by rw [hstrip0]; exact hne)
  rw [hstrip0, hdate] at hd0
  exact hd0

/-- Witness for C2 at the spec's scenario: ledger holding October 2025 for
player 12345678, fresh history adding November 2025. -/
theorem merged_then_reloaded_detects_nothing_witness :
    validate_fide_id "12345678" = true ∧
    detect_new_months "12345678" [⟨some ⟨2025, 11, 30⟩, some 2450, none, none⟩]
      (load_historical_ratings_by_player
        (.file (some outputFieldnames)
          (write_csv_output (some [⟨"2025-10-31", "12345678", "Test", "2440", "", ""⟩])
            [⟨"12345678", "Test", [⟨some ⟨2025, 11, 30⟩, some 2450, none, none⟩]⟩]))) = [] :=
  ⟨by decide, merged_then_reloaded_detects_nothing
    (some [⟨"2025-10-31", "12345678", "Test", "2440", "", ""⟩])
    ⟨"12345678", "Test", [⟨some ⟨2025, 11, 30⟩, some 2450, none, none⟩]⟩ (by decide)⟩

theorem contains_filter_ne_empty {l : List String} {x : String} (hx : x ≠ "") :
    (l.filter (fun s => s != "")).contains x = l.contains x := by
  have h1 : (x ∈ l.filter (fun s => s != "")) ↔ x ∈ l := by
    rw [List.mem_filter]
    simp [hx]
  simp only [List.contains, List.elem_eq_mem, h1]

/-- C1: `detect_new_months` returns exactly the fresh records whose
month-end date is not among the dates stored for the identifier (spec-words
refinement); an identifier absent from the ledger view gets its whole fresh
history back in order; and rating values play no role: any rating-rewriting
map commutes with detection. -/
theorem detect_new_months_spec_conformance (fid : String) (fresh : List HistRecord)
    (stored : StoredMap) (hdates : ∀ r ∈ fresh, r.date.isSome = true) :
    detect_new_months fid fresh stored = detect_new_months_spec fid fresh stored
    ∧ (alookup fid stored = none → detect_new_months fid fresh stored = fresh)
    ∧ (∀ m : HistRecord → HistRecord, (∀ r, (m r).date = r.date) →
        detect_new_months fid (fresh.map m) stored =
          (detect_new_months fid fresh stored).map m) := by
  refine ⟨?_, ?_, ?_⟩
  · unfold detect_new_months detect_new_months_spec
    refine List.filter_congr ?_
    intro r hr
    obtain ⟨d, hd⟩ := Option.isSome_iff_exists.mp (hdates r hr)
    simp only [hd]
    rw [detectStoredMonths_eq, contains_filter_ne_empty (isoformat_ne_empty d)]
  · intro hnone
    unfold detect_new_months
    rw [List.filter_eq_self]
    intro r hr
    obtain ⟨d, hd⟩ := Option.isSome_iff_exists.mp (hdates r hr)
    simp [hd, detectStoredMonths, hnone]
  · intro m hm
    unfold detect_new_months
    rw [List.filter_map]
    refine congrArg (List.map m) ?_
    refine List.filter_congr ?_
    intro r hr
    simp only [Function.comp_apply, hm r]

/-- Witness for C1 at the spec's scenario: one stored October record, a
fresh history of November and October. -/
theorem detect_new_months_spec_conformance_witness :
    (∀ r ∈ ([⟨some ⟨2025, 11, 30⟩, some 2450, none, none⟩,
             ⟨some ⟨2025, 10, 31⟩, some 2440, none, none⟩] : List HistRecord),
      r.date.isSome = true)
    ∧ (detect_new_months "12345678"
        [⟨some ⟨2025, 11, 30⟩, some 2450, none, none⟩,
         ⟨some ⟨2025, 10, 31⟩, some 2440, none, none⟩]
        [("12345678", [⟨"2025-10-31", "Test", some "2440", none, none⟩])] =
       detect_new_months_spec "12345678"
        [⟨some ⟨2025, 11, 30⟩, some 2450, none, none⟩,
         ⟨some ⟨2025, 10, 31⟩, some 2440, none, none⟩]
        [("12345678", [⟨"2025-10-31", "Test", some "2440", none, none⟩])]
      ∧ (alookup "12345678"
          ([("12345678", [⟨"2025-10-31", "Test", some "2440", none, none⟩])] : StoredMap) =
            none →
          detect_new_months "12345678"
            [⟨some ⟨2025, 11, 30⟩, some 2450, none, none⟩,
             ⟨some ⟨2025, 10, 31⟩, some 2440, none, none⟩]
            [("12345678", [⟨"2025-10-31", "Test", some "2440", none, none⟩])] =
            [⟨some ⟨2025, 11, 30⟩, some 2450, none, none⟩,
             ⟨some ⟨2025, 10, 31⟩, some 2440, none, none⟩])
      ∧ (∀ m : HistRecord → HistRecord, (∀ r, (m r).date = r.date) →
          detect_new_months "12345678"
            (([⟨some ⟨2025, 11, 30⟩, some 2450, none, none⟩,
               ⟨some ⟨2025, 10, 31⟩, some 2440, none, none⟩] : List HistRecord).map m)
            [("12345678", [⟨"2025-10-31", "Test", some "2440", none, none⟩])] =
          (detect_new_months "12345678"
            [⟨some ⟨2025, 11, 30⟩, some 2450, none, none⟩,
             ⟨some ⟨2025, 10, 31⟩, some 2440, none, none⟩]
            [("12345678", [⟨"2025-10-31", "Test", some "2440", none, none⟩])]).map m)) :=
  ⟨by decide, detect_new_months_spec_conformance "12345678"
    [⟨some ⟨2025, 11, 30⟩, some 2450, none, none⟩,
     ⟨some ⟨2025, 10, 31⟩, some 2440, none, none⟩]
    [("12345678", [⟨"2025-10-31", "Test", some "2440", none, none⟩])] (by decide)⟩

/-- C10: a scraped record whose date is `None` is silently excluded from
`detect_new_months`: detection ignores dateless records entirely, and no
record of the result lacks a date, for every ledger view. -/
theorem detect_new_months_skips_dateless (fid : String) (fresh : List HistRecord)
    (stored : StoredMap) :
    detect_new_months fid fresh stored =
      detect_new_months fid (fresh.filter (fun r => r.date.isSome)) stored
    ∧ (detect_new_months fid fresh stored).all (fun r => r.date.isSome) = true := by
  constructor
  · unfold detect_new_months
    rw [List.filter_filter]
    refine List.filter_congr ?_
    intro r hr
    cases hd : r.date with
    | none => simp [hd]
    | some d => simp [hd]
  · rw [List.all_eq_true]
    intro r hr
    unfold detect_new_months at hr
    have hp := (List.mem_filter.mp hr).2
    cases hd : r.date with
    | none => rw [hd] at hp; simp at hp
    | some d => simp

/-! ## Helper lemmas: rating-token parsing (for C8) -/

theorem toLower_eq_self_of_lt {c : Char} (h : c.toNat < 65) : Char.toLower c = c := by
  show (if c.toNat ≥ 65 ∧ c.toNat ≤ 90 then Char.ofNat (c.toNat + 32) else c) = c
  rw [if_neg (by omega)]

theorem toNat_lt_of_isDigit {c : Char} (h : c.isDigit = true) : c.toNat < 65 := by
  unfold Char.isDigit at h
  rw [Bool.and_eq_true, decide_eq_true_eq, decide_eq_true_eq] at h
  have h2 : c.val.toNat ≤ 57 := by exact_mod_cast h.2
  exact Nat.lt_of_le_of_lt h2 (by omega)

theorem toLower_fix_nonletter {c : Char}
    (h : c.isDigit = true ∨ c = '+' ∨ c = '-' ∨ pySpace c = true) :
    Char.toLower c = c := by
  rcases h with h | h | h | h
  · exact toLower_eq_self_of_lt (toNat_lt_of_isDigit h)
  · subst h; decide
  · subst h; decide
  · simp only [pySpace, Bool.or_eq_true, decide_eq_true_eq] at h
    rcases h with ((((h | h) | h) | h) | h) | h <;> subst h <;> decide

theorem stripChars_cons_of_not_space {c : Char} {rest : List Char} (hc : pySpace c = false) :
    ∃ t, stripChars (c :: rest) = c :: t := by
  unfold stripChars
  rw [List.dropWhile_cons]
  simp only [hc, Bool.false_eq_true, if_false]
  have hpre : ((c :: rest).reverse.dropWhile pySpace).reverse <+: (c :: rest) :=
    List.rdropWhile_prefix pySpace (c :: rest)
  have hne : ((c :: rest).reverse.dropWhile pySpace).reverse ≠ [] := by
    intro h0
    have hall : ∀ x ∈ (c :: rest), pySpace x = true :=
      List.rdropWhile_eq_nil_iff.mp h0
    have := hall c (List.mem_cons_self c rest)
    rw [hc] at this
    cases this
  cases h3 : ((c :: rest).reverse.dropWhile pySpace).reverse with
  | nil => exact absurd h3 hne
  | cons x t =>
    have hp2 : x :: t <+: c :: rest := h3 ▸ hpre
    have hx : x = c := (List.cons_prefix_cons.mp hp2).1
    exact ⟨t, by rw [hx]⟩

theorem pyIntOfChars_head {l : List Char} {n : Int} (h : pyIntOfChars l = some n) :
    ∃ c t, stripChars l = c :: t ∧ (c = '+' ∨ c = '-' ∨ c.isDigit = true) := by
  rw [pyIntOfChars] at h
  cases hsc : stripChars l with
  | nil => rw [hsc] at h; cases h
  | cons c t =>
    rw [hsc] at h
    replace h : (if c = '+' then
        (if duOk t then some (Int.ofNat (digitsVal (t.filter (fun x => x ≠ '_'))))
         else none)
      else if c = '-' then
        (if duOk t then some (-(Int.ofNat (digitsVal (t.filter (fun x => x ≠ '_')))))
         else none)
      else
        (if duOk (c :: t) then
          some (Int.ofNat (digitsVal ((c :: t).filter (fun x => x ≠ '_'))))
         else none)) = some n := h
    refine ⟨c, t, rfl, ?_⟩
    by_cases h1 : c = '+'
    · exact Or.inl h1
    · by_cases h2 : c = '-'
      · exact Or.inr (Or.inl h2)
      · rw [if_neg h1, if_neg h2] at h
        by_cases h3 : duOk (c :: t) = true
        · refine Or.inr (Or.inr ?_)
          rw [duOk, Bool.and_eq_true] at h3
          exact h3.1
        · rw [if_neg (by simpa using h3)] at h
          cases h

theorem pyInt_head_contra {s : String} {n : Int} (h : pyInt? s = some n)
    {c : Char} {cs : List Char} (hdata : s.data = c :: cs)
    (hc : c.isDigit = false ∧ c ≠ '+' ∧ c ≠ '-' ∧ pySpace c = false) : False := by
  obtain ⟨c2, t, hsc, hc2⟩ := pyIntOfChars_head h
  rw [hdata] at hsc
  obtain ⟨t2, hst⟩ := @stripChars_cons_of_not_space c cs hc.2.2.2
  rw [hst] at hsc
  have hcc : c = c2 := (List.cons.inj hsc).1
  rw [← hcc] at hc2
  rcases hc2 with h2 | h2 | h2
  · exact hc.2.1 h2
  · exact hc.2.2.1 h2
  · rw [hc.1] at h2
    cases h2

theorem pyLower_word_head {s w : String} (h : pyLower s = w) {w0 : Char}
    {wrest : List Char} (hw : w.data = w0 :: wrest) :
    ∃ c cs, s.data = c :: cs ∧ Char.toLower c = w0 := by
  unfold pyLower at h
  have hdata : s.data.map Char.toLower = w.data := congrArg String.data h
  rw [hw] at hdata
  cases hsd : s.data with
  | nil => rw [hsd] at hdata; cases hdata
  | cons c cs =>
    rw [hsd, List.map_cons] at hdata
    exact ⟨c, cs, rfl, (List.cons.inj hdata).1⟩

theorem not_intish_of_toLower_letter {c w0 : Char} (hl : Char.toLower c = w0)
    (hd : w0.isDigit = false) (hp : w0 ≠ '+') (hm : w0 ≠ '-') (hs : pySpace w0 = false) :
    c.isDigit = false ∧ c ≠ '+' ∧ c ≠ '-' ∧ pySpace c = false := by
  have key : ¬(c.isDigit = true ∨ c = '+' ∨ c = '-' ∨ pySpace c = true) := by
    intro hca
    have hfix := toLower_fix_nonletter hca
    rw [hfix] at hl
    subst hl
    rcases hca with h | h | h | h
    · rw [h] at hd; cases hd
    · exact hp h
    · exact hm h
    · rw [h] at hs; cases hs
  refine ⟨?_, ?_, ?_, ?_⟩
  · cases hx : c.isDigit
    · rfl
    · exact absurd (Or.inl hx) key
  · exact fun hx => key (Or.inr (Or.inl hx))
  · exact fun hx => key (Or.inr (Or.inr (Or.inl hx)))
  · cases hx : pySpace c
    · rfl
    · exact absurd (Or.inr (Or.inr (Or.inr hx))) key

theorem pyLower_empty_eq {s : String} (h : pyLower s = "") : s = "" := by
  unfold pyLower at h
  have hdata : s.data.map Char.toLower = ("" : String).data := congrArg String.data h
  cases hsd : s.data with
  | nil =>
    cases s with
    | mk l => cases hsd; rfl
  | cons c cs => rw [hsd] at hdata; cases hdata

theorem extract_rating_guard_false {t : String} {n : Int}
    (hint : pyInt? (pyStrip t) = some n) :
    ¬(pyStrip t = "" ∨ pyLower (pyStrip t) ∈ (["not rated", "unrated", ""] : List String)) := by
  intro hbad
  have hone : pyStrip t = "" ∨ pyLower (pyStrip t) = "not rated" ∨
      pyLower (pyStrip t) = "unrated" ∨ pyLower (pyStrip t) = "" := by
    rcases hbad with h | h
    · exact Or.inl h
    · rcases List.mem_cons.mp h with h | h
      · exact Or.inr (Or.inl h)
      · rcases List.mem_cons.mp h with h | h
        · exact Or.inr (Or.inr (Or.inl h))
        · exact Or.inr (Or.inr (Or.inr (List.mem_singleton.mp h)))
  rcases hone with h | h | h | h
  · rw [h] at hint
    have : pyInt? "" = none := by decide
    rw [this] at hint
    cases hint
  · obtain ⟨c, cs, hdata, hlc⟩ := @pyLower_word_head (pyStrip t) "not rated" h 'n'
      ("ot rated".data) (by decide)
    exact pyInt_head_contra hint hdata
      (not_intish_of_toLower_letter hlc (by decide) (by decide) (by decide) (by decide))
  · obtain ⟨c, cs, hdata, hlc⟩ := @pyLower_word_head (pyStrip t) "unrated" h 'u'
      ("nrated".data) (by decide)
    exact pyInt_head_contra hint hdata
      (not_intish_of_toLower_letter hlc (by decide) (by decide) (by decide) (by decide))
  · have := pyLower_empty_eq h
    rw [this] at hint
    have h2 : pyInt? "" = none := by decide
    rw [h2] at hint
    cases hint

/-- C8: rating-cell token semantics of the `extract_rating` closure: an
empty (stripped) token or one lowering to "not rated"/"unrated" is unrated;
a token parsing as an integer yields that integer exactly when it lies in
[0, 4000] and is unrated otherwise; a non-integer token is unrated; and a
6-cell row with any rating tokens — in particular all-unrated ones — is
still kept as a record with the three cells parsed independently. -/
theorem extract_rating_semantics (t : String) :
    (pyStrip t = "" → extract_rating t = none)
    ∧ (pyLower (pyStrip t) = "not rated" ∨ pyLower (pyStrip t) = "unrated" →
        extract_rating t = none)
    ∧ (∀ n : Int, pyInt? (pyStrip t) = some n →
        ((0 ≤ n ∧ n ≤ 4000 → extract_rating t = some n)
         ∧ (n < 0 ∨ 4000 < n → extract_rating t = none)))
    ∧ (pyInt? (pyStrip t) = none → extract_rating t = none)
    ∧ (∀ (m c2 c4 a b c : String), pyStrip m ≠ "" →
        processRow [m, a, c2, b, c4, c] =
          some ⟨pyStrip m, extract_rating a, extract_rating b, extract_rating c⟩) := by
  refine ⟨?_, ?_, ?_, ?_, ?_⟩
  · intro h
    show (if pyStrip t = "" ∨ pyLower (pyStrip t) ∈ (["not rated", "unrated", ""] : List String)
      then none else
        match pyInt? (pyStrip t) with
        | none => none
        | some r => if 0 ≤ r ∧ r ≤ 4000 then some r else none) = none
    rw [if_pos (Or.inl h)]
  · intro h
    show (if pyStrip t = "" ∨ pyLower (pyStrip t) ∈ (["not rated", "unrated", ""] : List String)
      then none else
        match pyInt? (pyStrip t) with
        | none => none
        | some r => if 0 ≤ r ∧ r ≤ 4000 then some r else none) = none
    refine (if_pos (Or.inr ?_))
    rcases h with h | h
    · rw [h]; decide
    · rw [h]; decide
  · intro n hint
    have hguard := extract_rating_guard_false hint
    constructor
    · intro hrange
      show (if pyStrip t = "" ∨ pyLower (pyStrip t) ∈ (["not rated", "unrated", ""] : List String)
        then none else
          match pyInt? (pyStrip t) with
          | none => none
          | some r => if 0 ≤ r ∧ r ≤ 4000 then some r else none) = some n
      rw [if_neg hguard, hint]
      show (if 0 ≤ n ∧ n ≤ 4000 then some n else none) = some n
      rw [if_pos hrange]
    · intro hout
      show (if pyStrip t = "" ∨ pyLower (pyStrip t) ∈ (["not rated", "unrated", ""] : List String)
        then none else
          match pyInt? (pyStrip t) with
          | none => none
          | some r => if 0 ≤ r ∧ r ≤ 4000 then some r else none) = none
      rw [if_neg hguard, hint]
      show (if 0 ≤ n ∧ n ≤ 4000 then some n else none) = none
      rw [if_neg (by omega)]
  · intro hnone
    by_cases hguard : pyStrip t = "" ∨ pyLower (pyStrip t) ∈
        (["not rated", "unrated", ""] : List String)
    · show (if pyStrip t = "" ∨ pyLower (pyStrip t) ∈ (["not rated", "unrated", ""] : List String)
        then none else
          match pyInt? (pyStrip t) with
          | none => none
          | some r => if 0 ≤ r ∧ r ≤ 4000 then some r else none) = none
      rw [if_pos hguard]
    · show (if pyStrip t = "" ∨ pyLower (pyStrip t) ∈ (["not rated", "unrated", ""] : List String)
        then none else
          match pyInt? (pyStrip t) with
          | none => none
          | some r => if 0 ≤ r ∧ r ≤ 4000 then some r else none) = none
      rw [if_neg hguard, hnone]
  · intro m c2 c4 a b c hm
    simp [processRow, hm]

/-- Witness for C8 across the token families and the all-unrated row. -/
theorem extract_rating_semantics_witness :
    extract_rating "  " = none ∧ extract_rating "Not Rated" = none
    ∧ extract_rating " 2440 " = some 2440 ∧ extract_rating "4001" = none
    ∧ extract_rating "abc" = none
    ∧ processRow ["2025-Nov", "Not rated", "x", "", "y", "unrated"] =
        some ⟨"2025-Nov", none, none, none⟩ :=
  ⟨(extract_rating_semantics "  ").1 (by decide),
   (extract_rating_semantics "Not Rated").2.1 (Or.inl (by decide)),
   ((extract_rating_semantics " 2440 ").2.2.1 2440 (by decide)).1 (by decide),
   ((extract_rating_semantics "4001").2.2.1 4001 (by decide)).2 (by decide),
   (extract_rating_semantics "abc").2.2.2.1 (by decide),
   by
     have h6 := (extract_rating_semantics "x").2.2.2.2
       "2025-Nov" "x" "y" "Not rated" "" "unrated" (by decide)
     rw [h6]
     decide⟩

/-- C7: loading the ledger never fails: a missing file, an unreadable file
(permission or decode error), a file with no header, or a file whose header
lacks any required column all load as the empty mapping. -/
theorem load_historical_ratings_tolerates_bad_sources :
    load_historical_ratings_by_player .missing = []
    ∧ load_historical_ratings_by_player .unreadable = []
    ∧ (∀ rows : List Row, load_historical_ratings_by_player (.file none rows) = [])
    ∧ (∀ (fns : List String) (rows : List Row) (f : String), f ∈ requiredFields →
        f ∉ fns → load_historical_ratings_by_player (.file (some fns) rows) = []) := by
  refine ⟨rfl, rfl, fun rows => rfl, ?_⟩
  intro fns rows f hf hnf
  have hc : ¬(requiredFields.all (fun g => fns.contains g) = true) := by
    intro hall
    have := List.all_eq_true.mp hall f hf
    simp only [List.elem_eq_mem, decide_eq_true_eq] at this
    exact hnf this
  show (if requiredFields.all (fun g => fns.contains g) then rows.foldl addStoredRow []
    else []) = []
  rw [if_neg hc]

/-- Witness for C7's schema-check conjunct: a present file whose header has
only a `Date` column loads as empty. -/
theorem load_historical_ratings_tolerates_bad_sources_witness :
    ("FIDE ID" ∈ requiredFields ∧ "FIDE ID" ∉ (["Date"] : List String))
    ∧ load_historical_ratings_by_player
        (.file (some ["Date"]) [⟨"2025-10-31", "12345678", "T", "1", "2", "3"⟩]) = [] :=
  ⟨⟨by decide, by decide⟩,
   load_historical_ratings_tolerates_bad_sources.2.2.2 ["Date"]
     [⟨"2025-10-31", "12345678", "T", "1", "2", "3"⟩] "FIDE ID" (by decide) (by decide)⟩

/-! ## Helper lemmas: the batch loop -/

theorem process_batch_foldl_aux (env : String → FetchOutcome) (today : String)
    (hist : StoredMap) (ids : List String) (rs : List BatchResult) (es : List String) :
    ids.foldl (fun acc fid =>
      match processOne env today hist fid with
      | .ok r => (acc.1 ++ [r], acc.2)
      | .error e => (acc.1, acc.2 ++ [e])) (rs, es) =
    (rs ++ ids.filterMap (fun i => (processOne env today hist i).toOption),
     es ++ ids.filterMap (fun i => exceptError (processOne env today hist i))) := by
  induction ids generalizing rs es with
  | nil => simp
  | cons i is ih =>
    cases hp : processOne env today hist i with
    | ok r =>
      simp [List.foldl_cons, hp, ih, List.filterMap_cons, Except.toOption, exceptError]
    | error e =>
      simp [List.foldl_cons, hp, ih, List.filterMap_cons, Except.toOption, exceptError]

theorem processOne_filterMap_length (env : String → FetchOutcome) (today : String)
    (hist : StoredMap) (ids : List String) :
    (ids.filterMap (fun i => (processOne env today hist i).toOption)).length +
      (ids.filterMap (fun i => exceptError (processOne env today hist i))).length =
      ids.length := by
  induction ids with
  | nil => rfl
  | cons i is ih =>
    cases hp : processOne env today hist i with
    | ok r =>
      simp only [List.filterMap_cons, hp, Except.toOption, exceptError,
        List.length_cons] at ih ⊢
      omega
    | error e =>
      simp only [List.filterMap_cons, hp, Except.toOption, exceptError,
        List.length_cons] at ih ⊢
      omega

/-- C6: batch processing isolates per-identifier failures: the batch result
is exactly the per-identifier outcomes in input order — each identifier
contributes its result to the result list or exactly one message to the
error list (never both, never neither), no failure stops the loop, and the
two lists' lengths add up to the input length. -/
theorem process_batch_isolates_failures (env : String → FetchOutcome) (today : String)
    (hist : StoredMap) (ids : List String) :
    process_batch env today hist ids =
      (ids.filterMap (fun i => (processOne env today hist i).toOption),
       ids.filterMap (fun i => exceptError (processOne env today hist i)))
    ∧ (process_batch env today hist ids).1.length +
        (process_batch env today hist ids).2.length = ids.length := by
  have hmain : process_batch env today hist ids =
      (ids.filterMap (fun i => (processOne env today hist i).toOption),
       ids.filterMap (fun i => exceptError (processOne env today hist i))) := by
    unfold process_batch
    have := process_batch_foldl_aux env today hist ids [] []
    simpa using this
  refine ⟨hmain, ?_⟩
  rw [hmain]
  exact processOne_filterMap_length env today hist ids

/-- C9: month-label conversion computes the last calendar day of the month
with leap years ("2025-Nov" to 2025-11-30, "2024-Feb" to 2024-02-29,
"2025-Feb" to 2025-02-28); a non-integer year or unknown month abbreviation
yields no date, and such a row is dropped by the conversion rather than
raising an error. -/
theorem parse_month_year_month_end_correct :
    _parse_month_year_string "2025-Nov" = some ⟨2025, 11, 30⟩
    ∧ _parse_month_year_string "2024-Feb" = some ⟨2024, 2, 29⟩
    ∧ _parse_month_year_string "2025-Feb" = some ⟨2025, 2, 28⟩
    ∧ (∀ (s : String) (ys ms : List Char),
        splitOnChar '-' (stripChars s.data) = [ys, ms] →
        ((pyIntOfChars (stripChars ys) = none → _parse_month_year_string s = none)
         ∧ (_parse_english_month (String.mk (stripChars ms)) = none →
             _parse_month_year_string s = none)))
    ∧ (∀ row : RawRow, _parse_month_year_string row.month_year_str = none →
        _convert_raw_history_to_records [row] = []) := by
  refine ⟨by decide, by decide, by decide, ?_, ?_⟩
  · intro s ys ms hsplit
    constructor
    · intro hy
      unfold _parse_month_year_string
      by_cases hs : s = ""
      · rw [if_pos hs]
      · rw [if_neg hs, hsplit]
        show (match pyIntOfChars (stripChars ys) with
          | none => none
          | some y =>
            match _parse_english_month (String.mk (stripChars ms)) with
            | none => none
            | some m =>
              if 1 ≤ y ∧ y ≤ 9999 then some (_calculate_month_end_date y m)
              else none) = none
        rw [hy]
    · intro hm
      unfold _parse_month_year_string
      by_cases hs : s = ""
      · rw [if_pos hs]
      · rw [if_neg hs, hsplit]
        show (match pyIntOfChars (stripChars ys) with
          | none => none
          | some y =>
            match _parse_english_month (String.mk (stripChars ms)) with
            | none => none
            | some m =>
              if 1 ≤ y ∧ y ≤ 9999 then some (_calculate_month_end_date y m)
              else none) = none
        cases hy : pyIntOfChars (stripChars ys) with
        | none => rfl
        | some y =>
          show (match _parse_english_month (String.mk (stripChars ms)) with
            | none => none
            | some m =>
              if 1 ≤ y ∧ y ≤ 9999 then some (_calculate_month_end_date y m)
              else none) = none
          rw [hm]
  · intro row h
    simp [_convert_raw_history_to_records, _deduplicate_history_by_month, dedupGo, h]

/-- Witness for C9's failure conjuncts: a non-integer year, an unknown
month abbreviation, and the corresponding row being dropped. -/
theorem parse_month_year_month_end_correct_witness :
    _parse_month_year_string "20x5-Nov" = none
    ∧ _parse_month_year_string "2025-Foo" = none
    ∧ _convert_raw_history_to_records [⟨"2025-Foo", some 1800, none, none⟩] = [] :=
  ⟨(parse_month_year_month_end_correct.2.2.2.1 "20x5-Nov" "20x5".data "Nov".data
      (by decide)).1 (by decide),
   (parse_month_year_month_end_correct.2.2.2.1 "2025-Foo" "2025".data "Foo".data
      (by decide)).2 (by decide),
   parse_month_year_month_end_correct.2.2.2.2 ⟨"2025-Foo", some 1800, none, none⟩
     (by decide)⟩

/-! ## Helper lemmas: deduplication (for C5) -/

theorem dedupGo_sublist (seen : List String) (l : List RawRow) :
    (dedupGo seen l).Sublist l := by
  induction l generalizing seen with
  | nil => exact List.Sublist.refl []
  | cons r rs ih =>
    unfold dedupGo
    by_cases h : r.month_year_str ∈ seen
    · rw [if_pos h]
      exact (ih seen).cons r
    · rw [if_neg h]
      exact (ih _).cons₂ r

theorem dedupGo_months_nodup (seen : List String) (l : List RawRow) :
    ((dedupGo seen l).map (fun r => r.month_year_str)).Nodup
    ∧ ∀ x ∈ (dedupGo seen l).map (fun r => r.month_year_str), x ∉ seen := by
  induction l generalizing seen with
  | nil => refine ⟨?_, ?_⟩ <;> simp [dedupGo]
  | cons r rs ih =>
    unfold dedupGo
    by_cases h : r.month_year_str ∈ seen
    · rw [if_pos h]
      exact ih seen
    · rw [if_neg h]
      obtain ⟨ihn, ihs⟩ := ih (r.month_year_str :: seen)
      refine ⟨?_, ?_⟩
      · rw [List.map_cons, List.nodup_cons]
        exact ⟨fun hx => (ihs _ hx) (List.mem_cons_self _ _), ihn⟩
      · intro x hx
        rw [List.map_cons, List.mem_cons] at hx
        rcases hx with rfl | hx
        · exact h
        · exact fun hxs => (ihs x hx) (List.mem_cons_of_mem _ hxs)

theorem dedupGo_find_first {seen : List String} {l : List RawRow} {r : RawRow}
    (hr : r ∈ dedupGo seen l) :
    r.month_year_str ∉ seen ∧
      l.find? (fun x => x.month_year_str == r.month_year_str) = some r := by
  induction l generalizing seen with
  | nil => cases hr
  | cons x xs ih =>
    unfold dedupGo at hr
    by_cases h : x.month_year_str ∈ seen
    · rw [if_pos h] at hr
      obtain ⟨hns, hfind⟩ := ih hr
      refine ⟨hns, ?_⟩
      rw [List.find?_cons_of_neg]
      · exact hfind
      · simp only [beq_iff_eq]
        intro hcc
        exact hns (hcc ▸ h)
    · rw [if_neg h] at hr
      rcases List.mem_cons.mp hr with rfl | hr2
      · refine ⟨h, ?_⟩
        rw [List.find?_cons_of_pos]
        simp
      · obtain ⟨hns, hfind⟩ := ih hr2
        have hmem : r.month_year_str ∉ seen :=
          fun hxs => hns (List.mem_cons_of_mem _ hxs)
        have hne : r.month_year_str ≠ x.month_year_str := by
          intro hcc
          exact hns (hcc ▸ List.mem_cons_self _ _)
        refine ⟨hmem, ?_⟩
        rw [List.find?_cons_of_neg]
        · exact hfind
        · simp only [beq_iff_eq]
          exact fun hcc => hne hcc.symm

theorem dedupGo_covers (seen : List String) (l : List RawRow) :
    ∀ r ∈ l, r.month_year_str ∈ seen ∨
      ∃ r2 ∈ dedupGo seen l, r2.month_year_str = r.month_year_str := by
  induction l generalizing seen with
  | nil => intro r hr; cases hr
  | cons x xs ih =>
    intro r hr
    unfold dedupGo
    by_cases h : x.month_year_str ∈ seen
    · rw [if_pos h]
      rcases List.mem_cons.mp hr with rfl | hr2
      · exact Or.inl h
      · exact ih seen r hr2
    · rw [if_neg h]
      rcases List.mem_cons.mp hr with heq0 | hr2
      · exact Or.inr ⟨x, List.mem_cons_self _ _, heq0 ▸ rfl⟩
      · rcases ih (x.month_year_str :: seen) r hr2 with hseen | ⟨r2, hr2m, hr2e⟩
        · rcases List.mem_cons.mp hseen with heq | hseen2
          · exact Or.inr ⟨x, List.mem_cons_self _ _, heq.symm⟩
          · exact Or.inl hseen2
        · exact Or.inr ⟨r2, List.mem_cons_of_mem _ hr2m, hr2e⟩

/-- Counterexample to C5 as stated: two lexically different labels for the
same month ("2025-Nov" and "2025 -Nov" — the latter has an inner space that
`strip` does not remove but the year-part strip tolerates) both survive the
label-keyed deduplication and parse to the same month-end date, so the
extracted history carries a duplicated `month_end_date`. -/
theorem extract_history_duplicate_date_counterexample :
    ¬ (((extract_rating_history (some [["Period", "Std", "a", "Rpd", "b", "Blz"],
          ["2025-Nov", "1800", "", "1850", "", "1800"],
          ["2025 -Nov", "1700", "", "1750", "", "1700"]])).map
        (fun r => r.date)).Nodup) := by
  intro h
  have h2 : ((extract_rating_history (some [["Period", "Std", "a", "Rpd", "b", "Blz"],
        ["2025-Nov", "1800", "", "1850", "", "1800"],
        ["2025 -Nov", "1700", "", "1750", "", "1700"]])).map
      (fun r => r.date)) = [some ⟨2025, 11, 30⟩, some ⟨2025, 11, 30⟩] := by decide
  rw [h2] at h
  simp at h

/-- C5 (amended): extraction deduplicates by month label, keeping only the
first (topmost) occurrence: the surviving labels are pairwise distinct, the
surviving rows form a subsequence of the raw rows in which every raw month
label is still represented, and each surviving row is exactly the first raw
row carrying its label. The `month_end_date` values of the final records
are pairwise distinct whenever distinct raw labels parse to distinct dates
(which the counterexample shows is not forced by the code itself). -/
theorem extract_history_dedup_by_label (doc : Option (List (List String))) :
    ((_deduplicate_history_by_month (_extract_all_history_rows doc)).map
        (fun r => r.month_year_str)).Nodup
    ∧ (_deduplicate_history_by_month (_extract_all_history_rows doc)).Sublist
        (_extract_all_history_rows doc)
    ∧ (∀ r ∈ _extract_all_history_rows doc,
        ∃ r2 ∈ _deduplicate_history_by_month (_extract_all_history_rows doc),
          r2.month_year_str = r.month_year_str)
    ∧ (∀ r ∈ _deduplicate_history_by_month (_extract_all_history_rows doc),
        (_extract_all_history_rows doc).find?
          (fun x => x.month_year_str == r.month_year_str) = some r)
    ∧ ((∀ r1 ∈ _extract_all_history_rows doc, ∀ r2 ∈ _extract_all_history_rows doc,
          _parse_month_year_string r1.month_year_str =
            _parse_month_year_string r2.month_year_str →
          r1.month_year_str = r2.month_year_str) →
        ((extract_rating_history doc).map (fun r => r.date)).Nodup) := by
  refine ⟨(dedupGo_months_nodup [] _).1, dedupGo_sublist [] _, ?_, ?_, ?_⟩
  · intro r hr
    rcases dedupGo_covers [] _ r hr with h | h
    · cases h
    · exact h
  · intro r hr
    exact (dedupGo_find_first hr).2
  · intro hinj
    have hnodup := (dedupGo_months_nodup [] (_extract_all_history_rows doc)).1
    have hPmonths : List.Pairwise
        (fun a b : RawRow => a.month_year_str ≠ b.month_year_str)
        (_deduplicate_history_by_month (_extract_all_history_rows doc)) :=
      List.pairwise_map.mp hnodup
    have hPparse : List.Pairwise
        (fun a b : RawRow => _parse_month_year_string a.month_year_str ≠
          _parse_month_year_string b.month_year_str)
        (_deduplicate_history_by_month (_extract_all_history_rows doc)) := by
      refine hPmonths.imp_of_mem ?_
      intro a b ha hb hne hpe
      have hsub := (dedupGo_sublist [] (_extract_all_history_rows doc)).subset
      exact hne (hinj a (hsub ha) b (hsub hb) hpe)
    unfold extract_rating_history _convert_raw_history_to_records
    rw [List.Nodup, List.pairwise_map]
    refine List.Pairwise.filterMap _ ?_ hPparse
    intro a b hR x hx y hy
    rw [Option.mem_def] at hx hy
    cases hpa : _parse_month_year_string a.month_year_str with
    | none =>
      rw [hpa] at hx
      cases hx
    | some da =>
      cases hpb : _parse_month_year_string b.month_year_str with
      | none =>
        rw [hpb] at hy
        cases hy
      | some db =>
        rw [hpa] at hx
        rw [hpb] at hy
        replace hx : some (⟨some da, a.standard, a.rapid, a.blitz⟩ : HistRecord) =
          some x := hx
        replace hy : some (⟨some db, b.standard, b.rapid, b.blitz⟩ : HistRecord) =
          some y := hy
        have hx2 := Option.some.inj hx
        have hy2 := Option.some.inj hy
        rw [← hx2, ← hy2]
        intro hdd
        have hdd2 : da = db := by simpa using hdd
        exact hR (by rw [hpa, hpb, hdd2])

/-- Witness for C5's amended date-distinctness conjunct at a well-formed
two-month document. -/
theorem extract_history_dedup_by_label_witness :
    ((extract_rating_history (some [["Period", "Std", "a", "Rpd", "b", "Blz"],
        ["2025-Nov", "1800", "", "1850", "", "1800"],
        ["2025-Oct", "1790", "", "1840", "", "1790"]])).map (fun r => r.date)).Nodup :=
  (extract_history_dedup_by_label (some [["Period", "Std", "a", "Rpd", "b", "Blz"],
      ["2025-Nov", "1800", "", "1850", "", "1800"],
      ["2025-Oct", "1790", "", "1840", "", "1790"]])).2.2.2.2 (by decide)
